import Mathlib

/-!
Verification development for the bounded multi-chat message cache of a chat
analysis bot (source file message_cache.py).  The cache keeps a bounded
per-chat buffer of messages (a deque with maxlen) plus an append-only
persistent table of rows whose timestamps are stored as fixed-width
strings.  Machine integers of the source are modelled as Int, datetimes as
an explicit record with a microsecond field (the source language datetime
type carries microseconds), and the fallible persistent store as a Bool
flag on the state: when the flag is false every store operation takes its
exception branch, exactly as the try/except blocks of the source do.
-/

namespace TgCache

/-- Model of the source language datetime value: year, month, day, hour,
minute, second and microsecond fields.  The constructor of the source type
enforces ranges; the predicate DateTime.Valid below captures them. -/
structure DateTime where
  year : Nat
  month : Nat
  day : Nat
  hour : Nat
  minute : Nat
  second : Nat
  microsecond : Nat
  deriving DecidableEq, Repr

/-- Range constraints enforced by the datetime constructor of the source
language (day ranges are slightly widened to 1..31 for every month, a
superset of the true domain, which only strengthens universally quantified
theorems). -/
def DateTime.Valid (t : DateTime) : Prop :=
  1 ≤ t.year ∧ t.year ≤ 9999 ∧ 1 ≤ t.month ∧ t.month ≤ 12 ∧ 1 ≤ t.day ∧ t.day ≤ 31 ∧
    t.hour ≤ 23 ∧ t.minute ≤ 59 ∧ t.second ≤ 59 ∧ t.microsecond ≤ 999999

instance (t : DateTime) : Decidable t.Valid := by
  unfold DateTime.Valid; infer_instance

/-- Mixed-radix key that realises the chronological (field-lexicographic)
order of valid datetimes: comparison of keys agrees with the comparison
operator of the source datetime type on the valid domain. -/
def DateTime.key (t : DateTime) : Nat :=
  (((((t.year * 16 + t.month) * 32 + t.day) * 32 + t.hour) * 64 + t.minute) * 64 + t.second)
      * 1048576 + t.microsecond

/-- Datetime with the sub-second part dropped, as the storage format does. -/
def truncSec (t : DateTime) : DateTime := { t with microsecond := 0 }

/-- Decimal digit character, codepoint 48 + n for n below 10. -/
def digitChar (n : Nat) : Char := Char.ofNat (48 + n)

/-- Two decimal digits, zero padded (strftime directives such as the month
or second field). -/
def pad2 (n : Nat) : List Char := [digitChar (n / 10), digitChar (n % 10)]

/-- Four decimal digits, zero padded (the strftime year directive). -/
def pad4 (n : Nat) : List Char := pad2 (n / 100) ++ pad2 (n % 100)

/-- Character data of the string produced by MessageCache._ts_to_str, which
formats a datetime with the fixed pattern of four-digit year, two-digit
month, day, hour, minute and second separated by dashes, a space and
colons.  The microsecond field is not consulted by the format. -/
def tsToStrData (t : DateTime) : List Char :=
  pad4 t.year ++ '-' :: pad2 t.month ++ '-' :: pad2 t.day ++ ' ' :: pad2 t.hour ++
    ':' :: pad2 t.minute ++ ':' :: pad2 t.second

/-- MessageCache._ts_to_str: format a datetime as a fixed-width, lexically
sortable string. -/
def ts_to_str (t : DateTime) : String := String.mk (tsToStrData t)

/-- Numeric value of a decimal digit character, none for other characters. -/
def readDigit (c : Char) : Option Nat :=
  if 48 ≤ c.toNat ∧ c.toNat ≤ 57 then some (c.toNat - 48) else none

/-- MessageCache._str_to_ts restricted to its primary branch: parse the
fixed-width format written by ts_to_str, checking digit positions,
separator positions and field ranges as the strptime pattern does.  Inputs
outside this shape (where the source would try a second parser and finally
fall back to the current wall-clock time) are mapped to none; no theorem
in this file evaluates the parser on such inputs. -/
def str_to_ts (s : String) : Option DateTime :=
  match s.data with
  | [y1, y2, y3, y4, a1, o1, o2, a2, d1, d2, a3, h1, h2, a4, i1, i2, a5, s1, s2] =>
    if a1 = '-' ∧ a2 = '-' ∧ a3 = ' ' ∧ a4 = ':' ∧ a5 = ':' then
      match readDigit y1, readDigit y2, readDigit y3, readDigit y4,
          readDigit o1, readDigit o2, readDigit d1, readDigit d2,
          readDigit h1, readDigit h2, readDigit i1, readDigit i2,
          readDigit s1, readDigit s2 with
      | some b1, some b2, some b3, some b4, some c1, some c2, some e1, some e2,
          some f1, some f2, some g1, some g2, some k1, some k2 =>
        let y := ((b1 * 10 + b2) * 10 + b3) * 10 + b4
        let mo := c1 * 10 + c2
        let d := e1 * 10 + e2
        let h := f1 * 10 + f2
        let mi := g1 * 10 + g2
        let sec := k1 * 10 + k2
        if 1 ≤ y ∧ 1 ≤ mo ∧ mo ≤ 12 ∧ 1 ≤ d ∧ d ≤ 31 ∧ h ≤ 23 ∧ mi ≤ 59 ∧ sec ≤ 59 then
          some ⟨y, mo, d, h, mi, sec, 0⟩
        else none
      | _, _, _, _, _, _, _, _, _, _, _, _, _, _ => none
    else none
  | _ => none

/-- Byte-wise lexicographic strict order on character lists, the collation
the persistent store uses to compare and sort the stored text column. -/
def strLtB : List Char → List Char → Bool
  | _, [] => false
  | [], _ :: _ => true
  | a :: as, b :: bs =>
    if a.toNat < b.toNat then true else if b.toNat < a.toNat then false else strLtB as bs

theorem strLtB_irrefl : ∀ x : List Char, strLtB x x = false := by
  intro x
  induction x with
  | nil => rfl
  | cons a as ih => simp [strLtB, ih]

theorem strLtB_cons_same (c : Char) (x y : List Char) :
    strLtB (c :: x) (c :: y) = strLtB x y := by
  simp [strLtB]

theorem char_eq_of_toNat_eq {a b : Char} (h : a.toNat = b.toNat) : a = b :=
  Char.ext (UInt32.ext h)

theorem strLtB_trans :
    ∀ x y z : List Char, strLtB x y = true → strLtB y z = true → strLtB x z = true := by
  intro x
  induction x with
  | nil =>
    intro y z hxy hyz
    cases y with
    | nil => simp [strLtB] at hxy
    | cons b bs =>
      cases z with
      | nil => simp [strLtB] at hyz
      | cons c cs => simp [strLtB]
  | cons a as ih =>
    intro y z hxy hyz
    cases y with
    | nil => simp [strLtB] at hxy
    | cons b bs =>
      cases z with
      | nil => simp [strLtB] at hyz
      | cons c cs =>
        simp only [strLtB] at hxy hyz ⊢
        split_ifs at hxy hyz ⊢ <;>
          first
          | rfl
          | exact absurd hxy (by decide)
          | exact absurd hyz (by decide)
          | exact ih bs cs hxy hyz
          | (exfalso; omega)

theorem strLtB_eq_of_not_lt :
    ∀ x y : List Char, strLtB x y = false → strLtB y x = false → x = y := by
  intro x
  induction x with
  | nil =>
    intro y h1 _
    cases y with
    | nil => rfl
    | cons b bs => simp [strLtB] at h1
  | cons a as ih =>
    intro y h1 h2
    cases y with
    | nil => simp [strLtB] at h2
    | cons b bs =>
      simp only [strLtB] at h1 h2
      split_ifs at h1 h2 with h3 h4
      all_goals
        first
        | exact absurd h1 (by decide)
        | exact absurd h2 (by decide)
        | (have hab : a = b := char_eq_of_toNat_eq (by omega)
           rw [hab, ih bs h1 h2])

theorem strLtB_asymm {x y : List Char} (h : strLtB x y = true) : strLtB y x = false := by
  by_contra hc
  have hyx : strLtB y x = true := by
    cases hxy : strLtB y x
    · exact absurd hxy hc
    · rfl
  have := strLtB_trans x y x h hyx
  rw [strLtB_irrefl] at this
  exact Bool.false_ne_true this

theorem digitChar_toNat (d : Nat) (h : d < 10) : (digitChar d).toNat = 48 + d := by
  interval_cases d <;> rfl

theorem readDigit_digitChar (d : Nat) (h : d < 10) : readDigit (digitChar d) = some d := by
  interval_cases d <;> rfl

theorem strLtB_pad2_append (p q : Nat) (r1 r2 : List Char) (hp : p ≤ 99) (hq : q ≤ 99) :
    strLtB (pad2 p ++ r1) (pad2 q ++ r2) = true ↔ p < q ∨ (p = q ∧ strLtB r1 r2 = true) := by
  simp only [pad2, List.cons_append, List.nil_append, strLtB,
    digitChar_toNat (p / 10) (by omega), digitChar_toNat (p % 10) (by omega),
    digitChar_toNat (q / 10) (by omega), digitChar_toNat (q % 10) (by omega)]
  split_ifs with hA hB hC hD
  · exact iff_of_true rfl (Or.inl (by omega))
  · apply iff_of_false (by decide)
    rintro (h | ⟨h, -⟩) <;> omega
  · exact iff_of_true rfl (Or.inl (by omega))
  · apply iff_of_false (by decide)
    rintro (h | ⟨h, -⟩) <;> omega
  · constructor
    · intro h
      exact Or.inr ⟨by omega, h⟩
    · rintro (h | ⟨-, hs⟩)
      · omega
      · exact hs

theorem strLtB_pad2 (p q : Nat) (hp : p ≤ 99) (hq : q ≤ 99) :
    strLtB (pad2 p) (pad2 q) = true ↔ p < q := by
  have h := strLtB_pad2_append p q [] [] hp hq
  simpa [strLtB] using h

/-- Lexicographic comparison of two formatted timestamps agrees with the
chronological comparison of their second-truncated values: this is the
lexical-sortability property of the storage format. -/
theorem tsToStr_lt_iff (t1 t2 : DateTime) (h1 : t1.Valid) (h2 : t2.Valid) :
    (strLtB (ts_to_str t1).data (ts_to_str t2).data = true ↔
      (truncSec t1).key < (truncSec t2).key) := by
  obtain ⟨a1, a2, a3, a4, a5, a6, a7, a8, a9, a10⟩ := h1
  obtain ⟨c1, c2, c3, c4, c5, c6, c7, c8, c9, c10⟩ := h2
  show strLtB (tsToStrData t1) (tsToStrData t2) = true ↔ _
  simp only [tsToStrData, pad4, List.append_assoc, List.cons_append]
  rw [strLtB_pad2_append _ _ _ _ (by omega) (by omega),
    strLtB_pad2_append _ _ _ _ (by omega) (by omega),
    strLtB_cons_same,
    strLtB_pad2_append _ _ _ _ (by omega) (by omega),
    strLtB_cons_same,
    strLtB_pad2_append _ _ _ _ (by omega) (by omega),
    strLtB_cons_same,
    strLtB_pad2_append _ _ _ _ (by omega) (by omega),
    strLtB_cons_same,
    strLtB_pad2_append _ _ _ _ (by omega) (by omega),
    strLtB_cons_same,
    strLtB_pad2 _ _ (by omega) (by omega)]
  simp only [DateTime.key, truncSec]
  omega

/-- Parsing a formatted timestamp returns the second-truncated value of the
original datetime. -/
theorem str_to_ts_ts_to_str (t : DateTime) (h : t.Valid) :
    str_to_ts (ts_to_str t) = some (truncSec t) := by
  obtain ⟨a1, a2, a3, a4, a5, a6, a7, a8, a9, a10⟩ := h
  have e : (ts_to_str t).data =
      [digitChar (t.year / 100 / 10), digitChar (t.year / 100 % 10),
       digitChar (t.year % 100 / 10), digitChar (t.year % 100 % 10), '-',
       digitChar (t.month / 10), digitChar (t.month % 10), '-',
       digitChar (t.day / 10), digitChar (t.day % 10), ' ',
       digitChar (t.hour / 10), digitChar (t.hour % 10), ':',
       digitChar (t.minute / 10), digitChar (t.minute % 10), ':',
       digitChar (t.second / 10), digitChar (t.second % 10)] := by
    simp [ts_to_str, tsToStrData, pad4, pad2]
  have r1 : readDigit (digitChar (t.year / 100 / 10)) = some (t.year / 100 / 10) :=
    readDigit_digitChar _ (by omega)
  have r2 : readDigit (digitChar (t.year / 100 % 10)) = some (t.year / 100 % 10) :=
    readDigit_digitChar _ (by omega)
  have r3 : readDigit (digitChar (t.year % 100 / 10)) = some (t.year % 100 / 10) :=
    readDigit_digitChar _ (by omega)
  have r4 : readDigit (digitChar (t.year % 100 % 10)) = some (t.year % 100 % 10) :=
    readDigit_digitChar _ (by omega)
  have r5 : readDigit (digitChar (t.month / 10)) = some (t.month / 10) :=
    readDigit_digitChar _ (by omega)
  have r6 : readDigit (digitChar (t.month % 10)) = some (t.month % 10) :=
    readDigit_digitChar _ (by omega)
  have r7 : readDigit (digitChar (t.day / 10)) = some (t.day / 10) :=
    readDigit_digitChar _ (by omega)
  have r8 : readDigit (digitChar (t.day % 10)) = some (t.day % 10) :=
    readDigit_digitChar _ (by omega)
  have r9 : readDigit (digitChar (t.hour / 10)) = some (t.hour / 10) :=
    readDigit_digitChar _ (by omega)
  have r10 : readDigit (digitChar (t.hour % 10)) = some (t.hour % 10) :=
    readDigit_digitChar _ (by omega)
  have r11 : readDigit (digitChar (t.minute / 10)) = some (t.minute / 10) :=
    readDigit_digitChar _ (by omega)
  have r12 : readDigit (digitChar (t.minute % 10)) = some (t.minute % 10) :=
    readDigit_digitChar _ (by omega)
  have r13 : readDigit (digitChar (t.second / 10)) = some (t.second / 10) :=
    readDigit_digitChar _ (by omega)
  have r14 : readDigit (digitChar (t.second % 10)) = some (t.second % 10) :=
    readDigit_digitChar _ (by omega)
  unfold str_to_ts
  rw [e]
  simp only [r1, r2, r3, r4, r5, r6, r7, r8, r9, r10, r11, r12, r13, r14]
  rw [if_pos (by simp)]
  rw [if_pos (by omega)]
  simp only [truncSec, Option.some.injEq, DateTime.mk.injEq]
  exact ⟨by omega, by omega, by omega, by omega, by omega, by omega, trivial⟩

/-- Message record built by MessageCache.add_message from its arguments. -/
structure Message where
  chat_id : Int
  user_id : Int
  username : String
  text : String
  timestamp : DateTime
  deriving DecidableEq, Repr

/-- Row of the persistent messages table: the timestamp column holds the
string written by ts_to_str.  The autoincrement id column is represented by
the position of the row in the list. -/
structure Row where
  chat_id : Int
  user_id : Int
  username : String
  text : String
  ts : String
  deriving DecidableEq, Repr

/-- State of a MessageCache instance: the per-chat bounded buffers (an
association list in insertion order, as the chats dict of the source), the
persistent table in insertion order, and a flag telling whether persistent
store operations succeed; when it is false every database statement raises
and the source code takes its except branch. -/
structure CacheState where
  max_size : Nat
  chats : List (Int × List Message)
  db : List Row
  dbOk : Bool
  deriving DecidableEq, Repr

def lookupChat : List (Int × List Message) → Int → Option (List Message)
  | [], _ => none
  | (k, b) :: rest, c => if k = c then some b else lookupChat rest c

/-- Membership test of the chats dict (the not-in guards of the source). -/
def containsChat (st : CacheState) (c : Int) : Bool := (lookupChat st.chats c).isSome

/-- Buffer of a chat, empty for an unknown chat. -/
def getBufD (st : CacheState) (c : Int) : List Message := (lookupChat st.chats c).getD []

def setBufL : List (Int × List Message) → Int → List Message → List (Int × List Message)
  | [], c, b => [(c, b)]
  | (k, v) :: rest, c, b => if k = c then (c, b) :: rest else (k, v) :: setBufL rest c b

def setBuf (st : CacheState) (c : Int) (b : List Message) : CacheState :=
  { st with chats := setBufL st.chats c b }

/-- Indexing the defaultdict of buffers: returns the buffer and the possibly
extended state, since a defaultdict lookup inserts a fresh empty deque for a
missing key as a side effect. -/
def dGet (st : CacheState) (c : Int) : List Message × CacheState :=
  match lookupChat st.chats c with
  | some b => (b, st)
  | none => ([], { st with chats := st.chats ++ [(c, [])] })

/-- Append to a deque with maxlen: when the buffer is at capacity the
oldest element is dropped from the left. -/
def pushBounded (maxSize : Nat) (b : List Message) (m : Message) : List Message :=
  (b ++ [m]).drop ((b ++ [m]).length - maxSize)

/-- MessageCache.add_message: build the message record, append it to the
per-chat buffer (created lazily by the defaultdict), then insert a row into
the persistent table inside a try/except — a failing store (dbOk false)
leaves the table unchanged and the exception is swallowed, so the function
is total and the buffer keeps the appended message. -/
def add_message (st : CacheState) (m : Message) : CacheState :=
  let p := dGet st m.chat_id
  let st1 := setBuf p.2 m.chat_id (pushBounded p.2.max_size p.1 m)
  if st1.dbOk then
    { st1 with db := st1.db ++ [⟨m.chat_id, m.user_id, m.username, m.text, ts_to_str m.timestamp⟩] }
  else st1

/-- Nonstrict row comparison by the stored timestamp string, the order the
persistent store uses for ORDER BY timestamp ASC. -/
def rowLe (r1 r2 : Row) : Prop := strLtB r2.ts.data r1.ts.data = false

instance : DecidableRel rowLe := fun r1 r2 => by unfold rowLe; infer_instance

/-- ORDER BY timestamp ASC, modelled as a stable sort on the timestamp
string column. -/
def sortRows (l : List Row) : List Row := List.insertionSort rowLe l

/-- MessageCache._row_to_message: rebuild a message from a row, parsing the
timestamp string.  The wall-clock fallback the source uses for an
unparseable string is modelled by a fixed epoch value; well-formed rows
never reach it. -/
def row_to_message (r : Row) : Message :=
  ⟨r.chat_id, r.user_id, r.username, r.text, (str_to_ts r.ts).getD ⟨1970, 1, 1, 0, 0, 0, 0⟩⟩

/-- Slice l[i:] of the source language: a negative start counts from the
end, clamped at zero. -/
def pyDropFrom {α : Type} (i : Int) (l : List α) : List α :=
  if i < 0 then l.drop ((l.length + i).toNat) else l.drop i.toNat

/-- SQL LIMIT n: a negative n means no limit. -/
def takeLimit (n : Int) (l : List Row) : List Row :=
  if n < 0 then l else l.take n.toNat

/-- Truthiness of the optional limit argument: None and 0 are falsy, so the
source applies no limit for either. -/
def limitTruthy : Option Int → Bool
  | none => false
  | some l => l != 0

/-- Nonstrict chronological comparison of messages by key. -/
def msgLe (a b : Message) : Prop := a.timestamp.key ≤ b.timestamp.key

instance : DecidableRel msgLe := fun a b => by unfold msgLe; infer_instance

/-- Strict chronological comparison, used to model the stable list sort of
the source (an element moves before another only when strictly earlier). -/
def msgLt (a b : Message) : Prop := a.timestamp.key < b.timestamp.key

instance : DecidableRel msgLt := fun a b => by unfold msgLt; infer_instance

def sortMsgs (l : List Message) : List Message := List.insertionSort msgLt l

/-- MessageCache.get_last_n_messages: read the n most recent rows from the
store (ORDER BY timestamp DESC LIMIT n, then reversed to chronological
order); on a store error fall back to the tail of the in-memory buffer. -/
def get_last_n_messages (st : CacheState) (c : Int) (n : Int) :
    List Message × CacheState :=
  if st.dbOk then
    (((takeLimit n (sortRows (st.db.filter (fun r => r.chat_id == c))).reverse).reverse).map
        row_to_message, st)
  else
    if containsChat st c then
      let p := dGet st c
      ((if n ≤ (p.1.length : Int) then pyDropFrom (-n) p.1 else p.1), p.2)
    else ([], st)

/-- MessageCache.get_messages_since: rows of the chat whose timestamp
string compares greater or equal to the formatted since_time, in ascending
string order; on a store error fall back to filtering the buffer with the
datetime comparison. -/
def get_messages_since (st : CacheState) (c : Int) (since : DateTime) :
    List Message × CacheState :=
  if st.dbOk then
    ((sortRows (st.db.filter
        (fun r => r.chat_id == c && !strLtB r.ts.data (ts_to_str since).data))).map
      row_to_message, st)
  else
    if containsChat st c then
      let p := dGet st c
      (p.1.filter (fun m => decide (since.key ≤ m.timestamp.key)), p.2)
    else ([], st)

structure ChatStats where
  total_messages : Nat
  unique_users : Nat
  oldest_message : Option DateTime
  newest_message : Option DateTime
  deriving DecidableEq, Repr

/-- SQL MIN over the timestamp string column (none on an empty set). -/
def minStrFold : List String → Option String
  | [] => none
  | s :: rest => some (rest.foldl (fun a b => if strLtB b.data a.data then b else a) s)

/-- SQL MAX over the timestamp string column (none on an empty set). -/
def maxStrFold : List String → Option String
  | [] => none
  | s :: rest => some (rest.foldl (fun a b => if strLtB a.data b.data then b else a) s)

/-- Conversion of an aggregated timestamp string to a datetime, with the
truthiness test of the source (None and the empty string give None). -/
def statsFromStr : Option String → Option DateTime
  | none => none
  | some s => if s = "" then none else some ((str_to_ts s).getD ⟨1970, 1, 1, 0, 0, 0, 0⟩)

/-- MessageCache.get_chat_stats: aggregate over the stored rows of the
chat; on a store error fall back to the buffer (where oldest and newest are
the first and last buffered message). -/
def get_chat_stats (st : CacheState) (c : Int) : ChatStats × CacheState :=
  if st.dbOk then
    let rows := st.db.filter (fun r => r.chat_id == c)
    ({ total_messages := rows.length,
       unique_users := (rows.map (fun r => r.user_id)).dedup.length,
       oldest_message := statsFromStr (minStrFold (rows.map (fun r => r.ts))),
       newest_message := statsFromStr (maxStrFold (rows.map (fun r => r.ts))) }, st)
  else
    if containsChat st c then
      let p := dGet st c
      ({ total_messages := p.1.length,
         unique_users := (p.1.map (fun m => m.user_id)).dedup.length,
         oldest_message := p.1.head?.map (fun m => m.timestamp),
         newest_message := p.1.getLast?.map (fun m => m.timestamp) }, p.2)
    else
      ({ total_messages := 0, unique_users := 0,
         oldest_message := none, newest_message := none }, st)

/-- MessageCache.clear_chat: clear the buffer when the chat is known, then
delete the stored rows of the chat; a store error is swallowed. -/
def clear_chat (st : CacheState) (c : Int) : CacheState :=
  let st1 := if containsChat st c then setBuf st c [] else st
  if st1.dbOk then { st1 with db := st1.db.filter (fun r => !(r.chat_id == c)) } else st1

/-- MessageCache.get_user_messages: chronological messages of one user in
one chat; with a truthy limit the query keeps the most recent rows (ORDER
BY DESC LIMIT, reversed).  The fallback filters the buffer and keeps the
last limit entries when a truthy limit is supplied and exceeded. -/
def get_user_messages (st : CacheState) (c : Int) (u : Int) (limit : Option Int) :
    List Message × CacheState :=
  if st.dbOk then
    let rows := st.db.filter (fun r => r.chat_id == c && r.user_id == u)
    if limitTruthy limit then
      (((takeLimit (limit.getD 0) (sortRows rows).reverse).reverse).map row_to_message, st)
    else ((sortRows rows).map row_to_message, st)
  else
    if containsChat st c then
      let p := dGet st c
      let ums := p.1.filter (fun m => m.user_id == u)
      ((if limitTruthy limit && decide ((limit.getD 0) < (ums.length : Int)) then
          pyDropFrom (-(limit.getD 0)) ums
        else ums), p.2)
    else ([], st)

/-- MessageCache.get_user_messages_all_chats: same as get_user_messages
without the chat filter; the fallback concatenates the buffers in dict
order, sorts by timestamp and applies the limit. -/
def get_user_messages_all_chats (st : CacheState) (u : Int) (limit : Option Int) :
    List Message × CacheState :=
  if st.dbOk then
    let rows := st.db.filter (fun r => r.user_id == u)
    if limitTruthy limit then
      (((takeLimit (limit.getD 0) (sortRows rows).reverse).reverse).map row_to_message, st)
    else ((sortRows rows).map row_to_message, st)
  else
    let ams := sortMsgs ((st.chats.map Prod.snd).flatten.filter (fun m => m.user_id == u))
    ((if limitTruthy limit && decide ((limit.getD 0) < (ams.length : Int)) then
        pyDropFrom (-(limit.getD 0)) ams
      else ams), st)

/-- Entry of an interaction bucket.  The buckets dict of
get_user_interactions maps a key to a list holding either raw messages of
the target user (appended under the literal key self) or interaction
records; an interaction record of the source also carries a constant type
tag, omitted here.  The user_message component is the message of the target
user when the partner spoke strictly after it and none otherwise, the
partner_message component is the partner message and the timestamp is the
partner timestamp. -/
inductive Entry where
  | selfMsg (m : Message)
  | inter (user_message : Option Message) (partner_message : Message) (timestamp : DateTime)
  deriving DecidableEq, Repr

/-- Appending a value under a key in a dict of lists (defaultdict of list):
a present key keeps its position and gets the value appended, a missing key
is created at the end. -/
def appendAt : List (String × List Entry) → String → Entry → List (String × List Entry)
  | [], k, e => [(k, [e])]
  | (k1, es) :: rest, k, e =>
    if k1 = k then (k1, es ++ [e]) :: rest else (k1, es) :: appendAt rest k e

/-- Bucket of a key in the dict, empty for a missing key. -/
def lookupB : List (String × List Entry) → String → List Entry
  | [], _ => []
  | (k1, es) :: rest, k => if k1 = k then es else lookupB rest k

/-- Default used only to give list indexing a total type; every index used
by the extractor is in range. -/
def mDefault : Message := ⟨0, 0, "", "", ⟨1970, 1, 1, 0, 0, 0, 0⟩⟩

/-- Interaction record built in the inner loop of get_user_interactions
for target message index i and context message index j. -/
def interRecord (i j : Nat) (m mj : Message) : Entry :=
  Entry.inter (if i < j then some m else none) mj mj.timestamp

/-- Key and entry pairs appended by the scan of get_user_interactions, in
append order: for every index i holding a message of the target user, one
self entry followed by one interaction entry per other-authored message in
the index window from i - 3 to min (length) (i + 4) exclusive (the
range call of the source with context_range 3). -/
def interPairs (msgs : List Message) (uid : Int) : List (String × Entry) :=
  (List.range msgs.length).flatMap (fun i =>
    let m := msgs.getD i mDefault
    if m.user_id == uid then
      ("self", Entry.selfMsg m) ::
        (((List.range' (i - 3) (min msgs.length (i + 4) - (i - 3))).filter
            (fun j => !((msgs.getD j mDefault).user_id == uid))).map
          (fun j => ((msgs.getD j mDefault).username, interRecord i j m (msgs.getD j mDefault))))
    else [])

/-- Cap applied per bucket when a truthy limit is supplied: a bucket longer
than the limit is replaced by its slice from index minus limit. -/
def capBucket (l : Int) (es : List Entry) : List Entry :=
  if l < (es.length : Int) then pyDropFrom (-l) es else es

/-- Scan of get_user_interactions over one buffer snapshot: fold the
appended pairs into the buckets dict, then cap every bucket (the self
bucket included, since the source iterates over all keys) when a truthy
limit is supplied. -/
def interCore (msgs : List Message) (uid : Int) (limit : Option Int) :
    List (String × List Entry) :=
  let buckets := (interPairs msgs uid).foldl (fun bs p => appendAt bs p.1 p.2) []
  if limitTruthy limit then
    buckets.map (fun p => (p.1, capBucket (limit.getD 0) p.2))
  else buckets

/-- MessageCache.get_user_interactions: empty dict for an unknown chat,
otherwise the windowed scan over the buffer of the chat.  This operation
reads only the in-memory buffers, never the persistent store. -/
def get_user_interactions (st : CacheState) (c : Int) (u : Int) (limit : Option Int) :
    List (String × List Entry) × CacheState :=
  if containsChat st c then
    let p := dGet st c
    (interCore p.1 u limit, p.2)
  else ([], st)

/-- Bucket contents as the specification words describe them: for every
position i of a message authored by the target user, a self entry in the
bucket keyed self, and for every position j inside the window from i - 3 to
i + 3 (clamped to the sequence bounds) holding a message of another author,
one interaction record in the bucket keyed by that author, carrying the
partner message, the target message only when j is after i, and the partner
timestamp. -/
def claimBucket (msgs : List Message) (uid : Int) (u : String) : List Entry :=
  (List.range msgs.length).flatMap (fun i =>
    let m := msgs.getD i mDefault
    if m.user_id == uid then
      (if "self" == u then [Entry.selfMsg m] else []) ++
        (((List.range msgs.length).filter (fun j =>
            (decide (i - 3 ≤ j) && decide (j ≤ i + 3)) &&
              (!((msgs.getD j mDefault).user_id == uid) &&
                ((msgs.getD j mDefault).username == u)))).map
          (fun j => interRecord i j m (msgs.getD j mDefault)))
    else [])

/-- Folding a list of ingestion events into the cache. -/
def addAll (st : CacheState) (ms : List Message) : CacheState := ms.foldl add_message st

theorem lookupChat_setBufL (l : List (Int × List Message)) (c : Int) (b : List Message)
    (c1 : Int) :
    lookupChat (setBufL l c b) c1 = if c = c1 then some b else lookupChat l c1 := by
  induction l with
  | nil => simp [setBufL, lookupChat]
  | cons kv rest ih =>
    obtain ⟨k, v⟩ := kv
    simp only [setBufL]
    split_ifs with h1 <;> simp only [lookupChat] <;> split_ifs <;> simp_all [lookupChat]

theorem lookupChat_append (l1 l2 : List (Int × List Message)) (c : Int) :
    lookupChat (l1 ++ l2) c = (lookupChat l1 c).or (lookupChat l2 c) := by
  induction l1 with
  | nil => simp [lookupChat]
  | cons kv rest ih =>
    obtain ⟨k, v⟩ := kv
    simp only [List.cons_append, lookupChat]
    split_ifs <;> simp [ih]

theorem getBufD_setBuf (st : CacheState) (c : Int) (b : List Message) (c1 : Int) :
    getBufD (setBuf st c b) c1 = if c = c1 then b else getBufD st c1 := by
  simp only [getBufD, setBuf, lookupChat_setBufL]
  split_ifs <;> rfl

theorem dGet_fst (st : CacheState) (c : Int) : (dGet st c).1 = getBufD st c := by
  unfold dGet getBufD
  cases h : lookupChat st.chats c <;> simp [h]

theorem getBufD_dGet_snd (st : CacheState) (c c1 : Int) :
    getBufD (dGet st c).2 c1 = getBufD st c1 := by
  unfold dGet
  cases h : lookupChat st.chats c with
  | some b => rfl
  | none =>
    simp only [getBufD, lookupChat_append]
    cases h1 : lookupChat st.chats c1 with
    | some b1 => simp [h1]
    | none =>
      simp only [Option.none_or]
      cases hcc : decide (c = c1) with
      | true =>
        have : c = c1 := of_decide_eq_true hcc
        subst this
        simp [lookupChat, h1]
      | false =>
        have : ¬ c = c1 := of_decide_eq_false hcc
        simp [lookupChat, this]

theorem dGet_snd_of_contains (st : CacheState) (c : Int) (h : containsChat st c = true) :
    (dGet st c).2 = st := by
  unfold containsChat at h
  unfold dGet
  cases h1 : lookupChat st.chats c with
  | some b => rfl
  | none => rw [h1] at h; simp at h

theorem dGet_snd_fields (st : CacheState) (c : Int) :
    (dGet st c).2.max_size = st.max_size ∧ (dGet st c).2.db = st.db ∧
      (dGet st c).2.dbOk = st.dbOk := by
  unfold dGet
  cases h : lookupChat st.chats c <;> simp

theorem getBufD_add_message (st : CacheState) (m : Message) (c : Int) :
    getBufD (add_message st m) c =
      if m.chat_id = c then pushBounded st.max_size (getBufD st m.chat_id) m
      else getBufD st c := by
  have key : getBufD (add_message st m) c =
      getBufD (setBuf (dGet st m.chat_id).2 m.chat_id
        (pushBounded (dGet st m.chat_id).2.max_size (dGet st m.chat_id).1 m)) c := by
    simp only [add_message]
    split <;> rfl
  rw [key, getBufD_setBuf, (dGet_snd_fields st m.chat_id).1, dGet_fst, getBufD_dGet_snd]

theorem add_message_fields (st : CacheState) (m : Message) :
    (add_message st m).max_size = st.max_size ∧ (add_message st m).dbOk = st.dbOk := by
  simp only [add_message]
  split <;>
    simp [setBuf, (dGet_snd_fields st m.chat_id).1, (dGet_snd_fields st m.chat_id).2.2]

theorem length_pushBounded (mx : Nat) (b : List Message) (m : Message) :
    (pushBounded mx b m).length = min (b.length + 1) mx := by
  simp only [pushBounded, List.length_drop, List.length_append, List.length_cons,
    List.length_nil]
  omega

theorem foldl_pushBounded (mx : Nat) (ms : List Message) :
    ∀ b : List Message, b.length ≤ mx →
      ms.foldl (pushBounded mx) b = (b ++ ms).drop (b.length + ms.length - mx) := by
  induction ms with
  | nil =>
    intro b hb
    simp only [List.foldl_nil, List.append_nil, List.length_nil, Nat.add_zero]
    rw [show b.length - mx = 0 from by omega, List.drop_zero]
  | cons m ms ih =>
    intro b hb
    have hlen1 : (b ++ [m]).length = b.length + 1 := by simp
    have hlen : (pushBounded mx b m).length ≤ mx := by
      rw [length_pushBounded]; omega
    rw [List.foldl_cons, ih _ hlen]
    have e1 : pushBounded mx b m ++ ms = ((b ++ [m]) ++ ms).drop (b.length + 1 - mx) := by
      rw [List.drop_append_eq_append_drop, hlen1]
      rw [show b.length + 1 - mx - (b.length + 1) = 0 from by omega, List.drop_zero]
      simp only [pushBounded, hlen1]
    rw [e1, List.drop_drop, show (b ++ [m]) ++ ms = b ++ m :: ms from by simp,
      length_pushBounded]
    congr 1
    simp only [List.length_cons]
    omega

theorem getBufD_addAll (ms : List Message) :
    ∀ (st : CacheState) (c : Int), (∀ m ∈ ms, m.chat_id = c) →
      getBufD (addAll st ms) c = ms.foldl (pushBounded st.max_size) (getBufD st c) := by
  induction ms with
  | nil => intro st c _; rfl
  | cons m ms ih =>
    intro st c hall
    have hm : m.chat_id = c := hall m (by simp)
    have hrest : ∀ m1 ∈ ms, m1.chat_id = c := fun m1 h1 => hall m1 (by simp [h1])
    show getBufD (addAll (add_message st m) ms) c = _
    rw [ih (add_message st m) c hrest, (add_message_fields st m).1,
      getBufD_add_message, if_pos hm, hm, List.foldl_cons]

/-- C1: a run of more than max_size ingestions into one (initially empty)
chat leaves exactly the most recent max_size messages in arrival order in
the buffer of the chat, the buffer length equals max_size, and an ingestion
never pushes any buffer beyond max_size. -/
theorem c1_bounded_eviction (st : CacheState) (c : Int) (ms : List Message)
    (hbuf : getBufD st c = []) (hall : ∀ m ∈ ms, m.chat_id = c)
    (hlen : st.max_size < ms.length) :
    getBufD (addAll st ms) c = ms.drop (ms.length - st.max_size) ∧
      (getBufD (addAll st ms) c).length = st.max_size ∧
      ∀ (st1 : CacheState) (m1 : Message) (c1 : Int),
        (getBufD st1 c1).length ≤ st1.max_size →
        (getBufD (add_message st1 m1) c1).length ≤ st1.max_size := by
  have hmain : getBufD (addAll st ms) c = ms.drop (ms.length - st.max_size) := by
    rw [getBufD_addAll ms st c hall, hbuf,
      foldl_pushBounded st.max_size ms [] (by simp)]
    simp
  refine ⟨hmain, ?_, ?_⟩
  · rw [hmain, List.length_drop]
    omega
  · intro st1 m1 c1 hb
    rw [getBufD_add_message]
    split_ifs with h1
    · rw [length_pushBounded]
      subst h1
      omega
    · exact hb

theorem c1_bounded_eviction_witness :
    getBufD (addAll ⟨2, [], [], true⟩ [⟨1, 5, "a", "x", ⟨2024, 1, 1, 0, 0, 0, 0⟩⟩,
        ⟨1, 5, "a", "y", ⟨2024, 1, 1, 0, 0, 1, 0⟩⟩, ⟨1, 5, "a", "z", ⟨2024, 1, 1, 0, 0, 2, 0⟩⟩]) 1 =
      [⟨1, 5, "a", "y", ⟨2024, 1, 1, 0, 0, 1, 0⟩⟩, ⟨1, 5, "a", "z", ⟨2024, 1, 1, 0, 0, 2, 0⟩⟩] ∧
      (getBufD (addAll ⟨2, [], [], true⟩ [⟨1, 5, "a", "x", ⟨2024, 1, 1, 0, 0, 0, 0⟩⟩,
        ⟨1, 5, "a", "y", ⟨2024, 1, 1, 0, 0, 1, 0⟩⟩, ⟨1, 5, "a", "z", ⟨2024, 1, 1, 0, 0, 2, 0⟩⟩]) 1).length = 2 := by
  have h := c1_bounded_eviction ⟨2, [], [], true⟩ 1
    [⟨1, 5, "a", "x", ⟨2024, 1, 1, 0, 0, 0, 0⟩⟩, ⟨1, 5, "a", "y", ⟨2024, 1, 1, 0, 0, 1, 0⟩⟩,
      ⟨1, 5, "a", "z", ⟨2024, 1, 1, 0, 0, 2, 0⟩⟩]
    (by decide) (by decide) (by decide)
  exact ⟨h.1, h.2.1⟩

/-- C6: ingestion is total and the buffer append survives a failing
persistent store: the buffer of the chat always becomes the bounded append
of the message, the appended message is the newest buffered one whenever
the capacity is positive, and when the store fails the table is unchanged
(the exception is swallowed by the except branch). -/
theorem c6_add_message_store_failure (st : CacheState) (m : Message) :
    getBufD (add_message st m) m.chat_id = pushBounded st.max_size (getBufD st m.chat_id) m ∧
      (0 < st.max_size →
        (getBufD (add_message st m) m.chat_id).getLast? = some m) ∧
      (st.dbOk = false → (add_message st m).db = st.db) := by
  refine ⟨by rw [getBufD_add_message, if_pos rfl], ?_, ?_⟩
  · intro hmx
    rw [getBufD_add_message, if_pos rfl]
    unfold pushBounded
    rw [List.drop_append_eq_append_drop]
    have h1 : (getBufD st m.chat_id ++ [m]).length - st.max_size ≤
        (getBufD st m.chat_id).length := by simp; omega
    have h2 : (getBufD st m.chat_id ++ [m]).length - st.max_size -
        (getBufD st m.chat_id).length = 0 := by simp; omega
    rw [h2]
    simp only [List.drop_zero]
    exact List.getLast?_concat _
  · intro hdb
    unfold add_message
    have h1 : (setBuf (dGet st m.chat_id).2 m.chat_id
        (pushBounded (dGet st m.chat_id).2.max_size (dGet st m.chat_id).1 m)).dbOk = false := by
      simp [setBuf, (dGet_snd_fields st m.chat_id).2.2, hdb]
    rw [if_neg (by simp [h1])]
    simp [setBuf, (dGet_snd_fields st m.chat_id).2.1]

theorem c6_add_message_store_failure_witness :
    (add_message ⟨5, [], [⟨2, 2, "b", "w", "1999-01-01 00:00:00"⟩], false⟩
        ⟨1, 5, "a", "x", ⟨2024, 1, 1, 0, 0, 0, 0⟩⟩).db =
      [⟨2, 2, "b", "w", "1999-01-01 00:00:00"⟩] ∧
      (getBufD (add_message ⟨5, [], [⟨2, 2, "b", "w", "1999-01-01 00:00:00"⟩], false⟩
          ⟨1, 5, "a", "x", ⟨2024, 1, 1, 0, 0, 0, 0⟩⟩) 1).getLast? =
        some ⟨1, 5, "a", "x", ⟨2024, 1, 1, 0, 0, 0, 0⟩⟩ := by
  have h := c6_add_message_store_failure ⟨5, [], [⟨2, 2, "b", "w", "1999-01-01 00:00:00"⟩], false⟩
    ⟨1, 5, "a", "x", ⟨2024, 1, 1, 0, 0, 0, 0⟩⟩
  exact ⟨h.2.2 rfl, h.2.1 (by decide)⟩

/-- C10: the query operations return the cache state unchanged — the
defaultdict of buffers is only ever indexed behind a membership guard, so
no query creates a buffer as a side effect. -/
theorem c10_queries_leave_state_unchanged (st : CacheState) (c : Int) (n : Int)
    (since : DateTime) (u : Int) (limit : Option Int) :
    (get_last_n_messages st c n).2 = st ∧
      (get_messages_since st c since).2 = st ∧
      (get_chat_stats st c).2 = st ∧
      (get_user_messages st c u limit).2 = st ∧
      (get_user_interactions st c u limit).2 = st := by
  refine ⟨?_, ?_, ?_, ?_, ?_⟩
  · simp only [get_last_n_messages]
    split_ifs <;> first | rfl | exact dGet_snd_of_contains st c (by assumption)
  · simp only [get_messages_since]
    split_ifs <;> first | rfl | exact dGet_snd_of_contains st c (by assumption)
  · simp only [get_chat_stats]
    split_ifs <;> first | rfl | exact dGet_snd_of_contains st c (by assumption)
  · simp only [get_user_messages]
    split_ifs <;> first | rfl | exact dGet_snd_of_contains st c (by assumption)
  · simp only [get_user_interactions]
    split_ifs <;> first | rfl | exact dGet_snd_of_contains st c (by assumption)

/-- C9: a limit of 0 is falsy in the source, so passing 0 behaves exactly
like passing no limit for the per-user queries and the interaction
extractor. -/
theorem c9_zero_limit_means_no_limit (st : CacheState) (c u : Int) :
    get_user_messages st c u (some 0) = get_user_messages st c u none ∧
      get_user_messages_all_chats st u (some 0) = get_user_messages_all_chats st u none ∧
      get_user_interactions st c u (some 0) = get_user_interactions st c u none := by
  refine ⟨?_, ?_, ?_⟩ <;>
    simp [get_user_messages, get_user_messages_all_chats, get_user_interactions, interCore,
      limitTruthy]

def st4 : CacheState :=
  ⟨100, [(5, [⟨5, 1, "a", "x", ⟨2024, 1, 1, 12, 0, 0, 0⟩⟩,
      ⟨5, 1, "a", "y", ⟨2024, 1, 1, 12, 0, 1, 0⟩⟩,
      ⟨5, 1, "a", "z", ⟨2024, 1, 1, 12, 0, 2, 0⟩⟩])], [], true⟩

/-- C4 as stated is false: with three buffered messages of the target user
and limit 1, the self bucket of the limited result holds one entry while
the unlimited self bucket holds three — the source iterates the cap over
every key of the dict, the self key included. -/
theorem c4_self_bucket_capped_counterexample :
    lookupB ((get_user_interactions st4 5 1 (some 1)).1) "self" ≠
      lookupB ((get_user_interactions st4 5 1 none).1) "self" := by
  decide

/-- C4 amended: when a truthy limit is supplied, every bucket — the self
bucket included — is capped post-hoc to its most recent limit entries (for
a positive limit); the limited result is exactly the unlimited result with
the cap mapped over every bucket. -/
theorem c4_limit_caps_every_bucket (st : CacheState) (c u : Int) (l : Int) (h : l ≠ 0) :
    (get_user_interactions st c u (some l)).1 =
      ((get_user_interactions st c u none).1).map (fun p => (p.1, capBucket l p.2)) := by
  unfold get_user_interactions
  split_ifs with h1
  · show interCore _ u (some l) = (interCore _ u none).map _
    unfold interCore
    have ht : limitTruthy (some l) = true := by simp [limitTruthy, h]
    have hf : limitTruthy (none : Option Int) = false := rfl
    rw [ht, hf]
    simp
  · simp

theorem c4_limit_caps_every_bucket_witness :
    (get_user_interactions st4 5 1 (some 1)).1 =
      ((get_user_interactions st4 5 1 none).1).map (fun p => (p.1, capBucket 1 p.2)) :=
  c4_limit_caps_every_bucket st4 5 1 1 (by decide)

theorem clear_chat_dbOk (st : CacheState) (c : Int) : (clear_chat st c).dbOk = st.dbOk := by
  simp only [clear_chat]
  split_ifs <;> simp [setBuf]

theorem clear_chat_chats (st : CacheState) (c : Int) :
    (clear_chat st c).chats = (if containsChat st c then setBuf st c [] else st).chats := by
  simp only [clear_chat]
  split_ifs <;> rfl

theorem clear_chat_db (st : CacheState) (c : Int) :
    (clear_chat st c).db =
      if st.dbOk then st.db.filter (fun r => !(r.chat_id == c)) else st.db := by
  simp only [clear_chat]
  split_ifs with h1 h2 h3 <;> simp_all [setBuf]

theorem getBufD_clear (st : CacheState) (c : Int) : getBufD (clear_chat st c) c = [] := by
  rw [getBufD, clear_chat_chats]
  split_ifs with h1
  · simp [setBuf, lookupChat_setBufL]
  · unfold containsChat at h1
    cases hl : lookupChat st.chats c with
    | none => simp [hl]
    | some b => rw [hl] at h1; simp at h1

theorem stats_clear_zero (st : CacheState) (c : Int) :
    (get_chat_stats (clear_chat st c) c).1 = ⟨0, 0, none, none⟩ := by
  cases hdb : st.dbOk with
  | false =>
    have h1 : (clear_chat st c).dbOk = false := by rw [clear_chat_dbOk, hdb]
    unfold get_chat_stats
    rw [if_neg (by simp [h1])]
    split_ifs with h2
    · have h3 : (dGet (clear_chat st c) c).1 = [] := by rw [dGet_fst, getBufD_clear]
      simp [h3]
    · rfl
  | true =>
    have h1 : (clear_chat st c).dbOk = true := by rw [clear_chat_dbOk, hdb]
    unfold get_chat_stats
    rw [if_pos h1]
    have h2 : (clear_chat st c).db.filter (fun r => r.chat_id == c) = [] := by
      rw [clear_chat_db, if_pos hdb, List.filter_filter]
      simp
    simp [h2, minStrFold, maxStrFold, statsFromStr]

theorem clear_db_filter_nil (st : CacheState) (c : Int) (h : st.dbOk = true) :
    (clear_chat st c).db.filter (fun r => r.chat_id == c) = [] := by
  rw [clear_chat_db, if_pos h, List.filter_filter]
  simp

/-- C8: clearing a chat empties its buffer, empties its stored rows when
the store is reachable, and is idempotent — the stats of the chat are the
all-zero form after the first and after the second clear, on every state
(the operation is total, so no exception escapes). -/
theorem c8_clear_chat_idempotent (st : CacheState) (c : Int) :
    (get_chat_stats (clear_chat st c) c).1 = ⟨0, 0, none, none⟩ ∧
      (get_chat_stats (clear_chat (clear_chat st c) c) c).1 = ⟨0, 0, none, none⟩ ∧
      getBufD (clear_chat st c) c = [] ∧
      (st.dbOk = true → (clear_chat st c).db.filter (fun r => r.chat_id == c) = []) :=
  ⟨stats_clear_zero st c, stats_clear_zero (clear_chat st c) c, getBufD_clear st c,
    clear_db_filter_nil st c⟩

theorem c8_clear_chat_idempotent_witness :
    (get_chat_stats (clear_chat ⟨100, [(7, [⟨7, 1, "a", "x", ⟨2024, 1, 1, 0, 0, 0, 0⟩⟩])],
        [⟨7, 1, "a", "x", "2024-01-01 00:00:00"⟩], true⟩ 7) 7).1 = ⟨0, 0, none, none⟩ ∧
      (clear_chat ⟨100, [(7, [⟨7, 1, "a", "x", ⟨2024, 1, 1, 0, 0, 0, 0⟩⟩])],
        [⟨7, 1, "a", "x", "2024-01-01 00:00:00"⟩], true⟩ 7).db.filter
          (fun r => r.chat_id == 7) = [] := by
  have h := c8_clear_chat_idempotent ⟨100, [(7, [⟨7, 1, "a", "x", ⟨2024, 1, 1, 0, 0, 0, 0⟩⟩])],
    [⟨7, 1, "a", "x", "2024-01-01 00:00:00"⟩], true⟩ 7
  exact ⟨h.1, h.2.2.2 rfl⟩

theorem truncSec_eq_self (t : DateTime) (h : t.microsecond = 0) : truncSec t = t := by
  cases t
  simp_all [truncSec]

/-- C3 as stated is false: the storage format keeps whole seconds only, so
a valid datetime with a nonzero microsecond field does not survive the
round trip through the codec. -/
theorem c3_codec_not_lossless_counterexample :
    DateTime.Valid ⟨2024, 1, 1, 12, 0, 0, 1⟩ ∧
      str_to_ts (ts_to_str ⟨2024, 1, 1, 12, 0, 0, 1⟩) ≠ some ⟨2024, 1, 1, 12, 0, 0, 1⟩ := by
  decide

/-- C3 amended: the codec is lossless on datetimes with zero sub-second
component, and on the valid domain the byte-lexicographic order of the
formatted strings agrees with the chronological order of the
second-truncated values. -/
theorem c3_codec_roundtrip_and_order (t1 t2 : DateTime) (h1 : t1.Valid) (h2 : t2.Valid)
    (hm : t1.microsecond = 0) :
    str_to_ts (ts_to_str t1) = some t1 ∧
      (strLtB (ts_to_str t1).data (ts_to_str t2).data = true ↔
        (truncSec t1).key < (truncSec t2).key) := by
  constructor
  · rw [str_to_ts_ts_to_str t1 h1, truncSec_eq_self t1 hm]
  · exact tsToStr_lt_iff t1 t2 h1 h2

theorem c3_codec_roundtrip_and_order_witness :
    str_to_ts (ts_to_str ⟨2024, 3, 7, 9, 5, 30, 0⟩) = some ⟨2024, 3, 7, 9, 5, 30, 0⟩ ∧
      (strLtB (ts_to_str ⟨2024, 3, 7, 9, 5, 30, 0⟩).data
          (ts_to_str ⟨2024, 3, 7, 9, 5, 31, 0⟩).data = true ↔
        (truncSec ⟨2024, 3, 7, 9, 5, 30, 0⟩).key < (truncSec ⟨2024, 3, 7, 9, 5, 31, 0⟩).key) :=
  c3_codec_roundtrip_and_order ⟨2024, 3, 7, 9, 5, 30, 0⟩ ⟨2024, 3, 7, 9, 5, 31, 0⟩
    (by decide) (by decide) rfl

theorem strLtB_le_trans {x y z : List Char} (h1 : strLtB y x = false)
    (h2 : strLtB z y = false) : strLtB z x = false := by
  cases hb : strLtB z x with
  | false => rfl
  | true =>
    exfalso
    cases hxy : strLtB x y with
    | true =>
      have ht := strLtB_trans z x y hb hxy
      exact absurd ht (by simp [h2])
    | false =>
      have hxy2 : x = y := strLtB_eq_of_not_lt x y hxy h1
      rw [hxy2] at hb
      exact absurd hb (by simp [h2])

/-- Generic specification of a fold that keeps one of its two arguments at
every step: the result is one of the folded elements and is a lower bound
for the accompanying relation. -/
theorem foldl_min_spec {α : Type} (pick : α → α → α) (le : α → α → Prop)
    (hrefl : ∀ a, le a a) (htrans : ∀ a b c, le a b → le b c → le a c)
    (hpick : ∀ a b, (pick a b = a ∨ pick a b = b) ∧ le (pick a b) a ∧ le (pick a b) b) :
    ∀ (rest : List α) (a : α),
      (rest.foldl pick a = a ∨ rest.foldl pick a ∈ rest) ∧
        ∀ x ∈ a :: rest, le (rest.foldl pick a) x := by
  intro rest
  induction rest with
  | nil =>
    intro a
    refine ⟨Or.inl rfl, ?_⟩
    intro x hx
    simp only [List.mem_cons, List.not_mem_nil, or_false] at hx
    subst hx
    exact hrefl _
  | cons b rest ih =>
    intro a
    simp only [List.foldl_cons]
    obtain ⟨hmem, hmin⟩ := ih (pick a b)
    constructor
    · rcases hmem with h | h
      · rcases (hpick a b).1 with h2 | h2
        · exact Or.inl (h.trans h2)
        · exact Or.inr (by simp [h.trans h2])
      · exact Or.inr (by simp [h])
    · intro x hx
      have hr_le_pick : le (rest.foldl pick (pick a b)) (pick a b) := hmin (pick a b) (by simp)
      simp only [List.mem_cons] at hx
      rcases hx with rfl | rfl | hx
      · exact htrans _ _ _ hr_le_pick (hpick _ _).2.1
      · exact htrans _ _ _ hr_le_pick (hpick _ _).2.2
      · exact hmin x (by simp [hx])

theorem minStrFold_spec (l : List String) (hne : l ≠ []) :
    ∃ s, minStrFold l = some s ∧ s ∈ l ∧ ∀ x ∈ l, strLtB x.data s.data = false := by
  cases l with
  | nil => exact absurd rfl hne
  | cons a rest =>
    have h := foldl_min_spec (fun a b => if strLtB b.data a.data then b else a)
      (fun r x => strLtB x.data r.data = false)
      (fun a => by exact strLtB_irrefl a.data)
      (fun a b c hab hbc => by exact strLtB_le_trans hab hbc)
      (fun a b => by
        dsimp only
        refine ⟨?_, ?_, ?_⟩
        · split_ifs <;> simp
        · split_ifs with hf
          · exact strLtB_asymm hf
          · exact strLtB_irrefl a.data
        · split_ifs with hf
          · exact strLtB_irrefl b.data
          · simpa using hf)
      rest a
    refine ⟨_, rfl, ?_, h.2⟩
    rcases h.1 with h1 | h1
    · rw [h1]; simp
    · simp [h1]

theorem maxStrFold_spec (l : List String) (hne : l ≠ []) :
    ∃ s, maxStrFold l = some s ∧ s ∈ l ∧ ∀ x ∈ l, strLtB s.data x.data = false := by
  cases l with
  | nil => exact absurd rfl hne
  | cons a rest =>
    have h := foldl_min_spec (fun a b => if strLtB a.data b.data then b else a)
      (fun r x => strLtB r.data x.data = false)
      (fun a => by exact strLtB_irrefl a.data)
      (fun a b c hab hbc => by exact strLtB_le_trans hbc hab)
      (fun a b => by
        dsimp only
        refine ⟨?_, ?_, ?_⟩
        · split_ifs <;> simp
        · split_ifs with hf
          · exact strLtB_asymm hf
          · exact strLtB_irrefl a.data
        · split_ifs with hf
          · exact strLtB_irrefl b.data
          · simpa using hf)
      rest a
    refine ⟨_, rfl, ?_, h.2⟩
    rcases h.1 with h1 | h1
    · rw [h1]; simp
    · simp [h1]

/-- Chronologically least timestamp of a list, the specification-side
notion of the oldest message timestamp. -/
def chronoMin : List DateTime → Option DateTime
  | [] => none
  | t :: rest => some (rest.foldl (fun a b => if b.key < a.key then b else a) t)

/-- Chronologically greatest timestamp of a list, the specification-side
notion of the newest message timestamp. -/
def chronoMax : List DateTime → Option DateTime
  | [] => none
  | t :: rest => some (rest.foldl (fun a b => if a.key < b.key then b else a) t)

theorem chronoMin_spec (l : List DateTime) (hne : l ≠ []) :
    ∃ t, chronoMin l = some t ∧ t ∈ l ∧ ∀ x ∈ l, t.key ≤ x.key := by
  cases l with
  | nil => exact absurd rfl hne
  | cons a rest =>
    have h := foldl_min_spec (fun a b => if b.key < a.key then b else a)
      (fun r x => r.key ≤ x.key)
      (fun a => by exact le_refl a.key)
      (fun a b c hab hbc => by exact le_trans hab hbc)
      (fun a b => by
        dsimp only
        refine ⟨?_, ?_, ?_⟩
        · split_ifs <;> simp
        · split_ifs <;> omega
        · split_ifs <;> omega)
      rest a
    refine ⟨_, rfl, ?_, h.2⟩
    rcases h.1 with h1 | h1
    · rw [h1]; simp
    · simp [h1]

theorem chronoMax_spec (l : List DateTime) (hne : l ≠ []) :
    ∃ t, chronoMax l = some t ∧ t ∈ l ∧ ∀ x ∈ l, x.key ≤ t.key := by
  cases l with
  | nil => exact absurd rfl hne
  | cons a rest =>
    have h := foldl_min_spec (fun a b => if a.key < b.key then b else a)
      (fun r x => x.key ≤ r.key)
      (fun a => by exact le_refl a.key)
      (fun a b c hab hbc => by exact le_trans hbc hab)
      (fun a b => by
        dsimp only
        refine ⟨?_, ?_, ?_⟩
        · split_ifs <;> simp
        · split_ifs <;> omega
        · split_ifs <;> omega)
      rest a
    refine ⟨_, rfl, ?_, h.2⟩
    rcases h.1 with h1 | h1
    · rw [h1]; simp
    · simp [h1]

/-- Rows written by add_message always carry a formatted timestamp of a
valid datetime, whole seconds only; this invariant of reachable states is
the hypothesis of the theorems about the read path of the store. -/
def WFdb (st : CacheState) : Prop :=
  ∀ r ∈ st.db, ∃ t : DateTime, t.Valid ∧ t.microsecond = 0 ∧ r.ts = ts_to_str t

/-- Messages of one chat as reconstructed from the persistent table. -/
def chatMessages (st : CacheState) (c : Int) : List Message :=
  (st.db.filter (fun r => r.chat_id == c)).map row_to_message

theorem key_inj (t1 t2 : DateTime) (h1 : t1.Valid) (h2 : t2.Valid)
    (hk : t1.key = t2.key) : t1 = t2 := by
  obtain ⟨y1, o1, d1, hh1, i1, s1, u1⟩ := t1
  obtain ⟨y2, o2, d2, hh2, i2, s2, u2⟩ := t2
  simp only [DateTime.Valid] at h1 h2
  simp only [DateTime.key] at hk
  simp only [DateTime.mk.injEq]
  refine ⟨?_, ?_, ?_, ?_, ?_, ?_, ?_⟩ <;> omega

theorem ts_to_str_ne_empty (t : DateTime) : ts_to_str t ≠ "" := by
  simp [ts_to_str, tsToStrData, pad4, pad2, String.ext_iff]

theorem wf_not_lt_iff (t1 t2 : DateTime) (h1 : t1.Valid) (h2 : t2.Valid)
    (m1 : t1.microsecond = 0) (m2 : t2.microsecond = 0) :
    (strLtB (ts_to_str t1).data (ts_to_str t2).data = false ↔ t2.key ≤ t1.key) := by
  have h := tsToStr_lt_iff t1 t2 h1 h2
  rw [truncSec_eq_self t1 m1, truncSec_eq_self t2 m2] at h
  constructor
  · intro hb
    have hnot : ¬ t1.key < t2.key := fun hk => by
      have := h.mpr hk
      rw [hb] at this
      exact Bool.false_ne_true this
    omega
  · intro hk
    cases hb : strLtB (ts_to_str t1).data (ts_to_str t2).data with
    | false => rfl
    | true => exact absurd (h.mp hb) (by omega)

theorem row_to_message_ts (r : Row) (t : DateTime) (ht : t.Valid) (hm : t.microsecond = 0)
    (he : r.ts = ts_to_str t) : (row_to_message r).timestamp = t := by
  simp [row_to_message, he, str_to_ts_ts_to_str t ht, truncSec_eq_self t hm]

/-- C7: on a reachable store (dbOk, well-formed rows), get_chat_stats
reports the number of retained messages of the chat, the cardinality of the
set of their user ids, and the chronological minimum and maximum of their
timestamps; an unknown chat yields the all-zero form (last conjunct, the
empty case). -/
theorem c7_get_chat_stats_consistent (st : CacheState) (c : Int) (hdb : st.dbOk = true)
    (hwf : WFdb st) :
    (get_chat_stats st c).1.total_messages = (chatMessages st c).length ∧
      (get_chat_stats st c).1.unique_users =
        ((chatMessages st c).map Message.user_id).toFinset.card ∧
      (get_chat_stats st c).1.oldest_message =
        chronoMin ((chatMessages st c).map Message.timestamp) ∧
      (get_chat_stats st c).1.newest_message =
        chronoMax ((chatMessages st c).map Message.timestamp) ∧
      (chatMessages st c = [] → (get_chat_stats st c).1 = ⟨0, 0, none, none⟩) := by
  have hstats : (get_chat_stats st c).1 =
      { total_messages := (st.db.filter (fun r => r.chat_id == c)).length,
        unique_users :=
          ((st.db.filter (fun r => r.chat_id == c)).map (fun r => r.user_id)).dedup.length,
        oldest_message :=
          statsFromStr (minStrFold ((st.db.filter (fun r => r.chat_id == c)).map
            (fun r => r.ts))),
        newest_message :=
          statsFromStr (maxStrFold ((st.db.filter (fun r => r.chat_id == c)).map
            (fun r => r.ts))) } := by
    simp [get_chat_stats, hdb]
  have hwfr : ∀ r ∈ st.db.filter (fun r => r.chat_id == c),
      ∃ t : DateTime, t.Valid ∧ t.microsecond = 0 ∧ r.ts = ts_to_str t :=
    fun r hr => hwf r (List.mem_filter.mp hr).1
  have hmemts : ∀ t : DateTime, t ∈ (chatMessages st c).map Message.timestamp ↔
      ∃ r ∈ st.db.filter (fun r => r.chat_id == c), (row_to_message r).timestamp = t := by
    intro t
    simp [chatMessages, List.mem_map]
  refine ⟨?_, ?_, ?_, ?_, ?_⟩
  · rw [hstats]
    simp [chatMessages]
  · rw [hstats]
    have hmm : (chatMessages st c).map Message.user_id =
        (st.db.filter (fun r => r.chat_id == c)).map (fun r => r.user_id) := by
      simp only [chatMessages, List.map_map]
      rfl
    rw [hmm, List.card_toFinset]
  · rw [hstats]
    dsimp only
    cases hrows : st.db.filter (fun r => r.chat_id == c) with
    | nil => simp [chatMessages, hrows, minStrFold, statsFromStr, chronoMin]
    | cons r0 rest =>
      obtain ⟨s, hsEq, hsMem, hsMin⟩ :=
        minStrFold_spec ((st.db.filter (fun r => r.chat_id == c)).map (fun r => r.ts))
          (by rw [hrows]; simp)
      obtain ⟨ra, hraMem, hraTs⟩ := List.mem_map.mp hsMem
      obtain ⟨t0, ht0V, ht0M, ht0E⟩ := hwfr ra hraMem
      have hs : s = ts_to_str t0 := by rw [← hraTs, ht0E]
      have hLHS : statsFromStr (minStrFold ((st.db.filter (fun r => r.chat_id == c)).map
          (fun r => r.ts))) = some t0 := by
        rw [hsEq, hs]
        simp [statsFromStr, ts_to_str_ne_empty t0, str_to_ts_ts_to_str t0 ht0V,
          truncSec_eq_self t0 ht0M]
      obtain ⟨t1, ht1Eq, ht1Mem, ht1Min⟩ :=
        chronoMin_spec ((chatMessages st c).map Message.timestamp)
          (by simp [chatMessages, hrows])
      obtain ⟨rb, hrbMem, hrbTs⟩ := (hmemts t1).mp ht1Mem
      obtain ⟨tb, htbV, htbM, htbE⟩ := hwfr rb hrbMem
      have ht1 : t1 = tb := by rw [← hrbTs, row_to_message_ts rb tb htbV htbM htbE]
      have hk1 : t0.key ≤ t1.key := by
        have hx := hsMin rb.ts (List.mem_map.mpr ⟨rb, hrbMem, rfl⟩)
        rw [htbE, hs] at hx
        rw [ht1]
        exact (wf_not_lt_iff tb t0 htbV ht0V htbM ht0M).mp hx
      have hk2 : t1.key ≤ t0.key := by
        apply ht1Min
        rw [hmemts]
        exact ⟨ra, hraMem, row_to_message_ts ra t0 ht0V ht0M ht0E⟩
      rw [hrows] at hLHS
      rw [hLHS, ht1Eq, key_inj t0 t1 ht0V (ht1 ▸ htbV) (le_antisymm hk1 hk2)]
  · rw [hstats]
    dsimp only
    cases hrows : st.db.filter (fun r => r.chat_id == c) with
    | nil => simp [chatMessages, hrows, maxStrFold, statsFromStr, chronoMax]
    | cons r0 rest =>
      obtain ⟨s, hsEq, hsMem, hsMax⟩ :=
        maxStrFold_spec ((st.db.filter (fun r => r.chat_id == c)).map (fun r => r.ts))
          (by rw [hrows]; simp)
      obtain ⟨ra, hraMem, hraTs⟩ := List.mem_map.mp hsMem
      obtain ⟨t0, ht0V, ht0M, ht0E⟩ := hwfr ra hraMem
      have hs : s = ts_to_str t0 := by rw [← hraTs, ht0E]
      have hLHS : statsFromStr (maxStrFold ((st.db.filter (fun r => r.chat_id == c)).map
          (fun r => r.ts))) = some t0 := by
        rw [hsEq, hs]
        simp [statsFromStr, ts_to_str_ne_empty t0, str_to_ts_ts_to_str t0 ht0V,
          truncSec_eq_self t0 ht0M]
      obtain ⟨t1, ht1Eq, ht1Mem, ht1Max⟩ :=
        chronoMax_spec ((chatMessages st c).map Message.timestamp)
          (by simp [chatMessages, hrows])
      obtain ⟨rb, hrbMem, hrbTs⟩ := (hmemts t1).mp ht1Mem
      obtain ⟨tb, htbV, htbM, htbE⟩ := hwfr rb hrbMem
      have ht1 : t1 = tb := by rw [← hrbTs, row_to_message_ts rb tb htbV htbM htbE]
      have hk1 : t1.key ≤ t0.key := by
        have hx := hsMax rb.ts (List.mem_map.mpr ⟨rb, hrbMem, rfl⟩)
        rw [htbE, hs] at hx
        rw [ht1]
        exact (wf_not_lt_iff t0 tb ht0V htbV ht0M htbM).mp hx
      have hk2 : t0.key ≤ t1.key := by
        apply ht1Max
        rw [hmemts]
        exact ⟨ra, hraMem, row_to_message_ts ra t0 ht0V ht0M ht0E⟩
      rw [hrows] at hLHS
      rw [hLHS, ht1Eq, key_inj t0 t1 ht0V (ht1 ▸ htbV) (le_antisymm hk2 hk1)]
  · intro hempty
    have hrows : st.db.filter (fun r => r.chat_id == c) = [] := by
      have := hempty
      unfold chatMessages at this
      exact List.map_eq_nil_iff.mp this
    rw [hstats, hrows]
    simp [minStrFold, maxStrFold, statsFromStr]

theorem c7_get_chat_stats_consistent_witness :
    (get_chat_stats ⟨100, [], [⟨7, 1, "a", "x", "2024-01-01 00:00:00"⟩,
        ⟨7, 2, "b", "y", "2024-01-01 00:00:01"⟩], true⟩ 7).1.total_messages =
      (chatMessages ⟨100, [], [⟨7, 1, "a", "x", "2024-01-01 00:00:00"⟩,
        ⟨7, 2, "b", "y", "2024-01-01 00:00:01"⟩], true⟩ 7).length ∧
    (get_chat_stats ⟨100, [], [⟨7, 1, "a", "x", "2024-01-01 00:00:00"⟩,
        ⟨7, 2, "b", "y", "2024-01-01 00:00:01"⟩], true⟩ 7).1.unique_users =
      ((chatMessages ⟨100, [], [⟨7, 1, "a", "x", "2024-01-01 00:00:00"⟩,
        ⟨7, 2, "b", "y", "2024-01-01 00:00:01"⟩], true⟩ 7).map Message.user_id).toFinset.card ∧
    (get_chat_stats ⟨100, [], [⟨7, 1, "a", "x", "2024-01-01 00:00:00"⟩,
        ⟨7, 2, "b", "y", "2024-01-01 00:00:01"⟩], true⟩ 7).1.oldest_message =
      chronoMin ((chatMessages ⟨100, [], [⟨7, 1, "a", "x", "2024-01-01 00:00:00"⟩,
        ⟨7, 2, "b", "y", "2024-01-01 00:00:01"⟩], true⟩ 7).map Message.timestamp) ∧
    (get_chat_stats ⟨100, [], [⟨7, 1, "a", "x", "2024-01-01 00:00:00"⟩,
        ⟨7, 2, "b", "y", "2024-01-01 00:00:01"⟩], true⟩ 7).1.newest_message =
      chronoMax ((chatMessages ⟨100, [], [⟨7, 1, "a", "x", "2024-01-01 00:00:00"⟩,
        ⟨7, 2, "b", "y", "2024-01-01 00:00:01"⟩], true⟩ 7).map Message.timestamp) := by
  have h := c7_get_chat_stats_consistent ⟨100, [], [⟨7, 1, "a", "x", "2024-01-01 00:00:00"⟩,
      ⟨7, 2, "b", "y", "2024-01-01 00:00:01"⟩], true⟩ 7 rfl
    (by
      intro r hr
      simp only [List.mem_cons, List.not_mem_nil, or_false] at hr
      rcases hr with rfl | rfl
      · exact ⟨⟨2024, 1, 1, 0, 0, 0, 0⟩, by decide, rfl, by decide⟩
      · exact ⟨⟨2024, 1, 1, 0, 0, 1, 0⟩, by decide, rfl, by decide⟩)
  exact ⟨h.1, h.2.1, h.2.2.1, h.2.2.2.1⟩

instance : IsTotal Row rowLe :=
  ⟨fun a b => by
    unfold rowLe
    cases h : strLtB b.ts.data a.ts.data with
    | false => exact Or.inl rfl
    | true => exact Or.inr (strLtB_asymm h)⟩

instance : IsTrans Row rowLe :=
  ⟨fun a b c hab hbc => by
    unfold rowLe at hab hbc ⊢
    exact strLtB_le_trans hab hbc⟩

theorem ts_to_str_truncSec (t : DateTime) : ts_to_str (truncSec t) = ts_to_str t := rfl

theorem truncSec_valid (t : DateTime) (h : t.Valid) : (truncSec t).Valid := by
  simp only [DateTime.Valid, truncSec] at h ⊢
  omega

/-- Bridge between the comparison on stored strings performed by the store
and the chronological comparison of the decoded timestamps. -/
theorem since_pred_bridge (since : DateTime) (hsv : since.Valid) (t : DateTime)
    (ht : t.Valid) (hm : t.microsecond = 0) :
    (!strLtB (ts_to_str t).data (ts_to_str since).data) =
      decide ((truncSec since).key ≤ t.key) := by
  have h := wf_not_lt_iff t (truncSec since) ht (truncSec_valid since hsv) hm rfl
  rw [ts_to_str_truncSec] at h
  cases hb : strLtB (ts_to_str t).data (ts_to_str since).data with
  | false =>
    simp only [hb, Bool.not_false]
    exact (decide_eq_true (h.mp hb)).symm
  | true =>
    simp only [hb, Bool.not_true]
    have hnot : ¬ (truncSec since).key ≤ t.key := by
      intro hc
      have hf := h.mpr hc
      rw [hb] at hf
      exact absurd hf (by simp)
    rw [decide_eq_false hnot]

def stC5 : CacheState := ⟨100, [], [⟨7, 1, "a", "x", "2024-01-01 12:00:00"⟩], true⟩

/-- C5 as stated is false: the store compares second-truncated strings, so
with since_time one microsecond past noon the stored message stamped
exactly noon is returned although its timestamp is strictly before
since_time. -/
theorem c5_since_counterexample :
    DateTime.Valid ⟨2024, 1, 1, 12, 0, 0, 1⟩ ∧
      (get_messages_since stC5 7 ⟨2024, 1, 1, 12, 0, 0, 1⟩).1 =
        [⟨7, 1, "a", "x", ⟨2024, 1, 1, 12, 0, 0, 0⟩⟩] ∧
      (⟨7, 1, "a", "x", ⟨2024, 1, 1, 12, 0, 0, 0⟩⟩ : Message).timestamp.key <
        DateTime.key ⟨2024, 1, 1, 12, 0, 0, 1⟩ := by
  refine ⟨by decide, ?_, by decide⟩
  decide

/-- C5 amended: on a reachable store, get_messages_since returns exactly
(as a multiset) the retained messages of the chat whose second-truncated
timestamp is at or after the second truncation of since_time, sorted
chronologically oldest first; in particular a retained message whose
timestamp equals since_time is included (inclusive lower bound). -/
theorem c5_get_messages_since_window (st : CacheState) (c : Int) (since : DateTime)
    (hdb : st.dbOk = true) (hsv : since.Valid) (hwf : WFdb st) :
    ((get_messages_since st c since).1).Perm
        ((chatMessages st c).filter
          (fun m => decide ((truncSec since).key ≤ m.timestamp.key))) ∧
      List.Sorted (fun a b : Message => a.timestamp.key ≤ b.timestamp.key)
        (get_messages_since st c since).1 ∧
      ∀ r ∈ st.db, r.chat_id = c → (row_to_message r).timestamp = since →
        row_to_message r ∈ (get_messages_since st c since).1 := by
  have hres : (get_messages_since st c since).1 =
      (sortRows (st.db.filter
        (fun r => r.chat_id == c && !strLtB r.ts.data (ts_to_str since).data))).map
        row_to_message := by
    simp [get_messages_since, hdb]
  have hFeq : st.db.filter
      (fun r => r.chat_id == c && !strLtB r.ts.data (ts_to_str since).data) =
      (st.db.filter (fun r => r.chat_id == c)).filter
        (fun r => !strLtB r.ts.data (ts_to_str since).data) := by
    rw [List.filter_filter]
    apply List.filter_congr
    intro r hr
    rw [Bool.and_comm]
  have hFspec : st.db.filter
      (fun r => r.chat_id == c && !strLtB r.ts.data (ts_to_str since).data) =
      (st.db.filter (fun r => r.chat_id == c)).filter
        (fun r => decide ((truncSec since).key ≤ (row_to_message r).timestamp.key)) := by
    rw [hFeq]
    apply List.filter_congr
    intro r hr
    obtain ⟨t, htV, htM, htE⟩ := hwf r (List.mem_filter.mp hr).1
    rw [htE, row_to_message_ts r t htV htM htE]
    exact since_pred_bridge since hsv t htV htM
  refine ⟨?_, ?_, ?_⟩
  · rw [hres, hFspec]
    refine ((List.perm_insertionSort rowLe _).map row_to_message).trans ?_
    unfold chatMessages
    rw [List.filter_map]
    exact List.Perm.refl _
  · rw [hres]
    refine List.pairwise_map.mpr ?_
    have hsorted : List.Sorted rowLe (sortRows (st.db.filter
        (fun r => r.chat_id == c && !strLtB r.ts.data (ts_to_str since).data))) :=
      List.sorted_insertionSort rowLe _
    apply hsorted.imp_of_mem
    intro a b ha hb hab
    have hmem : ∀ x ∈ sortRows (st.db.filter
        (fun r => r.chat_id == c && !strLtB r.ts.data (ts_to_str since).data)),
        x ∈ st.db := by
      intro x hx
      have := (List.perm_insertionSort rowLe _).mem_iff.mp hx
      exact (List.mem_filter.mp this).1
    obtain ⟨ta, haV, haM, haE⟩ := hwf a (hmem a ha)
    obtain ⟨tb, hbV, hbM, hbE⟩ := hwf b (hmem b hb)
    rw [row_to_message_ts a ta haV haM haE, row_to_message_ts b tb hbV hbM hbE]
    unfold rowLe at hab
    rw [haE, hbE] at hab
    exact (wf_not_lt_iff tb ta hbV haV hbM haM).mp hab
  · intro r hr hchat hts
    obtain ⟨t, htV, htM, htE⟩ := hwf r hr
    have htsince : t = since := by
      rw [← row_to_message_ts r t htV htM htE, hts]
    rw [hres]
    apply List.mem_map.mpr
    refine ⟨r, ?_, rfl⟩
    refine (List.perm_insertionSort rowLe _).mem_iff.mpr ?_
    apply List.mem_filter.mpr
    refine ⟨hr, ?_⟩
    rw [htE, htsince]
    simp [strLtB_irrefl, hchat]

def stW5 : CacheState :=
  ⟨100, [], [⟨7, 1, "a", "x", "2024-01-01 00:00:00"⟩,
    ⟨7, 2, "b", "y", "2024-01-01 00:00:01"⟩], true⟩

theorem c5_get_messages_since_window_witness :
    ((get_messages_since stW5 7 ⟨2024, 1, 1, 0, 0, 1, 0⟩).1).Perm
        ((chatMessages stW5 7).filter
          (fun m => decide ((truncSec ⟨2024, 1, 1, 0, 0, 1, 0⟩).key ≤ m.timestamp.key))) ∧
      List.Sorted (fun a b : Message => a.timestamp.key ≤ b.timestamp.key)
        (get_messages_since stW5 7 ⟨2024, 1, 1, 0, 0, 1, 0⟩).1 ∧
      row_to_message ⟨7, 2, "b", "y", "2024-01-01 00:00:01"⟩ ∈
        (get_messages_since stW5 7 ⟨2024, 1, 1, 0, 0, 1, 0⟩).1 := by
  have h := c5_get_messages_since_window stW5 7 ⟨2024, 1, 1, 0, 0, 1, 0⟩ rfl (by decide)
    (by
      intro r hr
      simp only [stW5, List.mem_cons, List.not_mem_nil, or_false] at hr
      rcases hr with rfl | rfl
      · exact ⟨⟨2024, 1, 1, 0, 0, 0, 0⟩, by decide, rfl, by decide⟩
      · exact ⟨⟨2024, 1, 1, 0, 0, 1, 0⟩, by decide, rfl, by decide⟩)
  exact ⟨h.1, h.2.1, h.2.2 ⟨7, 2, "b", "y", "2024-01-01 00:00:01"⟩ (by decide) rfl (by decide)⟩

theorem lookupB_appendAt (bs : List (String × List Entry)) (k : String) (e : Entry)
    (u : String) :
    lookupB (appendAt bs k e) u = if k = u then lookupB bs u ++ [e] else lookupB bs u := by
  induction bs with
  | nil =>
    by_cases h : k = u
    · subst h; simp [appendAt, lookupB]
    · simp [appendAt, lookupB, h]
  | cons kv rest ih =>
    obtain ⟨k1, es⟩ := kv
    by_cases h1 : k1 = k
    · subst h1
      by_cases h2 : k1 = u
      · subst h2
        simp [appendAt, lookupB]
      · simp [appendAt, lookupB, h2]
    · by_cases h2 : k1 = u
      · subst h2
        have hku : ¬ k = k1 := fun hk => h1 hk.symm
        simp [appendAt, lookupB, h1, hku]
      · by_cases h3 : k = u
        · subst h3
          simp [appendAt, lookupB, h1, h2, ih]
        · simp [appendAt, lookupB, h1, h2, h3, ih]

theorem lookupB_foldl (ps : List (String × Entry)) :
    ∀ (acc : List (String × List Entry)) (u : String),
      lookupB (ps.foldl (fun bs p => appendAt bs p.1 p.2) acc) u =
        lookupB acc u ++ (ps.filter (fun p => p.1 == u)).map Prod.snd := by
  induction ps with
  | nil => intro acc u; simp
  | cons p ps ih =>
    intro acc u
    rw [List.foldl_cons, ih, lookupB_appendAt, List.filter_cons]
    by_cases h : p.1 = u
    · rw [if_pos h, if_pos (by simp [h])]
      simp
    · rw [if_neg h, if_neg (by simp [h])]

theorem filter_le_range (b a : Nat) :
    (List.range b).filter (fun j => decide (a ≤ j)) = List.range' a (b - a) := by
  induction b with
  | zero => simp
  | succ b ih =>
    rw [List.range_succ, List.filter_append, ih]
    by_cases hab : a ≤ b
    · have h1 : b + 1 - a = (b - a) + 1 := by omega
      rw [h1, List.range'_concat]
      have h2 : a + 1 * (b - a) = b := by omega
      rw [h2]
      simp [hab]
    · have h1 : b + 1 - a = 0 := by omega
      have h2 : b - a = 0 := by omega
      rw [h1, h2]
      simp [hab]

theorem filter_lt_range (n b : Nat) :
    (List.range n).filter (fun j => decide (j < b)) = List.range (min n b) := by
  induction n with
  | zero => simp
  | succ n ih =>
    rw [List.range_succ, List.filter_append, ih]
    by_cases hnb : n < b
    · have h1 : min (n + 1) b = min n b + 1 := by omega
      have h2 : min n b = n := by omega
      rw [h1, h2, List.range_succ]
      simp [hnb]
    · have h1 : min (n + 1) b = min n b := by omega
      rw [h1]
      simp [hnb]

/-- The index window of the source (a range call from i - 3 to the clamped
upper bound) equals the positions of the sequence lying within three of i,
the form used by the specification. -/
theorem range'_window_eq (n i : Nat) :
    List.range' (i - 3) (min n (i + 4) - (i - 3)) =
      (List.range n).filter (fun j => decide (i - 3 ≤ j) && decide (j ≤ i + 3)) := by
  symm
  have h1 : (fun j : Nat => decide (i - 3 ≤ j) && decide (j ≤ i + 3)) =
      (fun j : Nat => decide (i - 3 ≤ j) && decide (j < i + 4)) := by
    funext j
    congr 1
    exact decide_eq_decide.mpr (by omega)
  rw [h1, ← List.filter_filter, filter_lt_range, filter_le_range]

theorem flatMap_congr_fun {α β : Type} {f g : α → List β} (h : ∀ x, f x = g x)
    (l : List α) : l.flatMap f = l.flatMap g := by
  rw [funext h]

theorem filter_and_rot {α : Type} (p q r : α → Bool) (l : List α) :
    l.filter (fun x => (p x && q x) && r x) = l.filter (fun x => r x && (q x && p x)) := by
  apply List.filter_congr
  intro x hx
  cases hp : p x <;> cases hq : q x <;> cases hr : r x <;> simp [hp, hq, hr]

/-- Lookup of any key in the buckets produced by the windowed scan equals
the bucket the specification describes. -/
theorem interCore_lookup (msgs : List Message) (uid : Int) (u : String) :
    lookupB (interCore msgs uid none) u = claimBucket msgs uid u := by
  unfold interCore
  rw [show limitTruthy none = false from rfl]
  simp only [Bool.false_eq_true, if_false]
  rw [lookupB_foldl]
  simp only [lookupB, List.nil_append]
  unfold interPairs claimBucket
  rw [List.filter_flatMap, List.map_flatMap]
  apply flatMap_congr_fun
  intro i
  dsimp only
  by_cases hm : ((msgs.getD i mDefault).user_id == uid) = true
  · rw [if_pos hm, if_pos hm, List.filter_cons]
    have htail :
        ((((List.range' (i - 3) (min msgs.length (i + 4) - (i - 3))).filter
            (fun j => !((msgs.getD j mDefault).user_id == uid))).map
          (fun j => ((msgs.getD j mDefault).username,
            interRecord i j (msgs.getD i mDefault) (msgs.getD j mDefault)))).filter
          (fun p => p.1 == u)).map Prod.snd =
        ((List.range msgs.length).filter (fun j =>
            (decide (i - 3 ≤ j) && decide (j ≤ i + 3)) &&
              (!((msgs.getD j mDefault).user_id == uid) &&
                ((msgs.getD j mDefault).username == u)))).map
          (fun j => interRecord i j (msgs.getD i mDefault) (msgs.getD j mDefault)) := by
      rw [List.filter_map, List.map_map, range'_window_eq, List.filter_filter,
        List.filter_filter]
      rw [filter_and_rot]
      rfl
    by_cases hu : (("self" : String) == u) = true
    · rw [if_pos hu, if_pos hu, List.map_cons, htail]
      rfl
    · rw [if_neg hu, if_neg hu, htail, List.nil_append]
  · rw [if_neg hm, if_neg hm]
    rfl

def exMsgs : List Message :=
  [⟨9, 11, "p1", "p1", ⟨2024, 1, 1, 12, 0, 0, 0⟩⟩,
   ⟨9, 12, "p2", "p2", ⟨2024, 1, 1, 12, 0, 1, 0⟩⟩,
   ⟨9, 7, "u", "u", ⟨2024, 1, 1, 12, 0, 2, 0⟩⟩,
   ⟨9, 13, "p3", "p3", ⟨2024, 1, 1, 12, 0, 3, 0⟩⟩,
   ⟨9, 14, "p4", "p4", ⟨2024, 1, 1, 12, 0, 4, 0⟩⟩,
   ⟨9, 15, "p5", "p5", ⟨2024, 1, 1, 12, 0, 5, 0⟩⟩,
   ⟨9, 16, "p6", "p6", ⟨2024, 1, 1, 12, 0, 6, 0⟩⟩]

def stEx2 : CacheState := ⟨100, [(9, exMsgs)], [], true⟩

/-- C2: every bucket of get_user_interactions is exactly the bucket the
specification words describe — one self entry per target message, and one
interaction record per other-authored message within three positions of a
target message, keyed by that author, carrying the partner message, the
target message only when the partner spoke strictly later, and the partner
timestamp.  The concrete conjuncts check the P1..P6 window example: with
the target message at index 2, the buckets of P1 through P5 each hold one
record (with the target message attached exactly for P3, P4 and P5), the
bucket of P6 is empty, and the self bucket holds the target message. -/
theorem c2_interaction_windowing :
    (∀ (st : CacheState) (c uid : Int) (u : String),
        lookupB ((get_user_interactions st c uid none).1) u =
          claimBucket (getBufD st c) uid u) ∧
      lookupB ((get_user_interactions stEx2 9 7 none).1) "p1" =
        [Entry.inter none ⟨9, 11, "p1", "p1", ⟨2024, 1, 1, 12, 0, 0, 0⟩⟩
          ⟨2024, 1, 1, 12, 0, 0, 0⟩] ∧
      lookupB ((get_user_interactions stEx2 9 7 none).1) "p2" =
        [Entry.inter none ⟨9, 12, "p2", "p2", ⟨2024, 1, 1, 12, 0, 1, 0⟩⟩
          ⟨2024, 1, 1, 12, 0, 1, 0⟩] ∧
      lookupB ((get_user_interactions stEx2 9 7 none).1) "p3" =
        [Entry.inter (some ⟨9, 7, "u", "u", ⟨2024, 1, 1, 12, 0, 2, 0⟩⟩)
          ⟨9, 13, "p3", "p3", ⟨2024, 1, 1, 12, 0, 3, 0⟩⟩ ⟨2024, 1, 1, 12, 0, 3, 0⟩] ∧
      lookupB ((get_user_interactions stEx2 9 7 none).1) "p4" =
        [Entry.inter (some ⟨9, 7, "u", "u", ⟨2024, 1, 1, 12, 0, 2, 0⟩⟩)
          ⟨9, 14, "p4", "p4", ⟨2024, 1, 1, 12, 0, 4, 0⟩⟩ ⟨2024, 1, 1, 12, 0, 4, 0⟩] ∧
      lookupB ((get_user_interactions stEx2 9 7 none).1) "p5" =
        [Entry.inter (some ⟨9, 7, "u", "u", ⟨2024, 1, 1, 12, 0, 2, 0⟩⟩)
          ⟨9, 15, "p5", "p5", ⟨2024, 1, 1, 12, 0, 5, 0⟩⟩ ⟨2024, 1, 1, 12, 0, 5, 0⟩] ∧
      lookupB ((get_user_interactions stEx2 9 7 none).1) "p6" = [] ∧
      lookupB ((get_user_interactions stEx2 9 7 none).1) "self" =
        [Entry.selfMsg ⟨9, 7, "u", "u", ⟨2024, 1, 1, 12, 0, 2, 0⟩⟩] := by
  refine ⟨?_, by decide, by decide, by decide, by decide, by decide, by decide, by decide⟩
  intro st c uid u
  unfold get_user_interactions
  split_ifs with h1
  · show lookupB (interCore (dGet st c).1 uid none) u = _
    rw [dGet_fst]
    exact interCore_lookup (getBufD st c) uid u
  · have hb : getBufD st c = [] := by
      unfold containsChat at h1
      cases hl : lookupChat st.chats c with
      | none => simp [getBufD, hl]
      | some b => rw [hl] at h1; simp at h1
    rw [hb]
    simp [claimBucket, lookupB]

end TgCache
